import Mathlib

/-!
Verification of the `tools/registry_compile.py` markdown-to-JSON compiler.

The Python source is shallowly embedded over `List Char`.  Python regular
expressions are modelled operationally with explicit backtracking search
(greedy pieces try longest first, lazy pieces shortest first, `re.search`
tries start positions left to right).  Python `float` values are modelled as
exact rationals (`ℚ`); the only floats the program produces come from
`float()` on digit-and-dot strings and from small integer frequencies, so
no rounding behaviour is observable at the precision the claims speak about.
Whitespace and digit classes are modelled over their ASCII members.
-/

set_option maxRecDepth 20000

/-- Characters of a string literal, the working representation of Python `str`. -/
def str (s : String) : List Char := s.data

/-- ASCII members of Python's regex `\s` / `str.strip` whitespace class. -/
def isPySpace (c : Char) : Bool :=
  c = ' ' ∨ c = '\t' ∨ c = '\n' ∨ c = '\r' ∨ c = '\x0b' ∨ c = '\x0c'

/-- Python `str.strip()`: drop whitespace from both ends. -/
def pyStrip (s : List Char) : List Char :=
  ((s.dropWhile isPySpace).reverse.dropWhile isPySpace).reverse

/-- Python `str.lower()` (ASCII case folding). -/
def pyLower (s : List Char) : List Char := s.map Char.toLower

/-- Prepend a character to the first piece of a split result. -/
def consHead (c : Char) : List (List Char) → List (List Char)
  | [] => [[c]]
  | h :: t => (c :: h) :: t

/-- Python `str.split(sep)` for a one-character separator. -/
def pySplit (a : Char) : List Char → List (List Char)
  | [] => [[]]
  | c :: rest => if c = a then [] :: pySplit a rest else consHead c (pySplit a rest)

/-- ASCII members of Python's regex `\w` class. -/
def isWordChar (c : Char) : Bool := c.isAlphanum ∨ c = '_'

mutual
/-- `re.sub(r"[^\w]+", "_", s)`: collapse each maximal run of non-word
characters into a single underscore. -/
def subNonWord : List Char → List Char
  | [] => []
  | c :: rest => if isWordChar c then c :: subNonWord rest else '_' :: skipNonWord rest

/-- State of `subNonWord` inside a non-word run whose `_` is already emitted. -/
def skipNonWord : List Char → List Char
  | [] => []
  | c :: rest => if isWordChar c then c :: subNonWord rest else skipNonWord rest
end

/-- `re.sub(r"[^\w]+", "_", name).lower()`, the card `id` slug. -/
def slug (name : List Char) : List Char := pyLower (subNonWord name)

/-- Backtracking for a greedy `\s*`-like piece: try dropping `n` characters,
then `n-1`, …, down to `0`, returning the first success of the continuation. -/
def tryDesc (s : List Char) : Nat → (List Char → Option α) → Option α
  | 0, k => k s
  | n + 1, k => (k (s.drop (n + 1))).orElse (fun _ => tryDesc s n k)

/-- Backtracking for a greedy `\s+`-like piece: like `tryDesc` but at least
one character must be consumed. -/
def tryDesc1 (s : List Char) : Nat → (List Char → Option α) → Option α
  | 0, _ => none
  | n + 1, k => (k (s.drop (n + 1))).orElse (fun _ => tryDesc1 s n k)

/-- Greedy `\s*` followed by the continuation. -/
def wsStar (s : List Char) (k : List Char → Option α) : Option α :=
  tryDesc s (s.takeWhile isPySpace).length k

/-- Greedy `\s+` followed by the continuation. -/
def wsPlus (s : List Char) (k : List Char → Option α) : Option α :=
  tryDesc1 s (s.takeWhile isPySpace).length k

/-- A literal piece of a pattern followed by the continuation. -/
def lit (p : List Char) (s : List Char) (k : List Char → Option α) : Option α :=
  if p.isPrefixOf s then k (s.drop p.length) else none

/-- `re.search`: try to match at position 0, then 1, … (leftmost match wins). -/
def searchFrom (m : List Char → Option α) : List Char → Option α
  | [] => m []
  | c :: rest => (m (c :: rest)).orElse (fun _ => searchFrom m rest)

/-- Matching `-\s*<key>:\s*([^\n]+)` at one fixed position; returns group 1. -/
def fieldMatch (k : List Char) (s : List Char) : Option (List Char) :=
  match s with
  | [] => none
  | c :: r =>
      if c = '-' then
        wsStar r (fun r1 =>
          lit (k ++ [':']) r1 (fun r2 =>
            wsStar r2 (fun r3 =>
              let v := r3.takeWhile (fun c => c ≠ '\n')
              if v.isEmpty then none else some v)))
      else none

/-- `field(b, k)`: `re.search(r"-\s*<k>:\s*([^\n]+)", b)`, stripped group, or `""`. -/
def field (b k : List Char) : List Char :=
  match searchFrom (fieldMatch k) b with
  | some g => pyStrip g
  | none => []

/-- Matching `Solfeggio\s*=\s*([\d\.]+)` at one fixed position; returns group 1. -/
def solfMatch (s : List Char) : Option (List Char) :=
  lit (str "Solfeggio") s (fun r1 =>
    wsStar r1 (fun r2 =>
      lit ['='] r2 (fun r3 =>
        wsStar r3 (fun r4 =>
          let v := r4.takeWhile (fun c => c.isDigit ∨ c = '.')
          if v.isEmpty then none else some v))))

/-- Does `\s*$` (with `re.M`) accept here: skip whitespace until the end of the
string or a `\n` is reached. -/
def wsStarDollar : List Char → Bool
  | [] => true
  | c :: rest => if c = '\n' then true else if isPySpace c then wsStarDollar rest else false

/-- Lazy `(.+?)\s*$`: grow the group one non-newline character at a time until
`\s*$` accepts the remainder; `acc` holds the reversed group so far. -/
def lazyScan (acc : List Char) : List Char → Option (List Char)
  | [] => none
  | c :: rest =>
      if c = '\n' then none
      else if wsStarDollar rest then some (acc.reverse ++ [c])
      else lazyScan (c :: acc) rest

/-- Matching `^##\s+(.+?)\s*$` at one fixed line-start position; returns group 1. -/
def nameMatchAt (s : List Char) : Option (List Char) :=
  lit (str "##") s (fun r1 => wsPlus r1 (fun r2 => lazyScan [] r2))

/-- The positions after each `\n`, tried in order (for `re.M`'s `^`). -/
def searchAfterNewlines (m : List Char → Option α) : List Char → Option α
  | [] => none
  | c :: rest =>
      if c = '\n' then (m rest).orElse (fun _ => searchAfterNewlines m rest)
      else searchAfterNewlines m rest

/-- `re.search` with `re.M` on a `^`-anchored pattern: position 0 first, then
after each newline. -/
def searchMultiline (m : List Char → Option α) (s : List Char) : Option α :=
  (m s).orElse (fun _ => searchAfterNewlines m s)

/-- Python `p in s` on strings: contiguous substring containment. -/
def hasSub (p : List Char) : List Char → Bool
  | [] => p.isEmpty
  | c :: rest => p.isPrefixOf (c :: rest) || hasSub p rest

/-- `map_freq(ray)`: keyword-to-frequency mapping with ordered precedence;
`none` models Python `None` (the `ray or ""` guard). -/
def map_freq (ray : Option (List Char)) : Nat :=
  let r := pyLower (ray.getD [])
  if hasSub (str "violet") r then 963
  else if hasSub (str "indigo") r ∨ hasSub (str "silver") r then 852
  else if [str "gold", str "emerald", str "green", str "aquamarine",
           str "turquoise"].any (fun x => hasSub x r) then 528
  else if hasSub (str "crimson") r then 417
  else if hasSub (str "scarlet") r ∨ hasSub (str "red") r then 285
  else 432

/-- `suit(n)`: substring classification of a card name. -/
def suit (n : List Char) : List Char :=
  let s := pyLower n
  if hasSub (str "wands") s then str "wands"
  else if hasSub (str "cups") s then str "cups"
  else if hasSub (str "pentacles") s ∨ hasSub (str "coin") s then str "pentacles"
  else if hasSub (str "swords") s ∨ hasSub (str "blade") s then str "swords"
  else str "majors"

/-- `parse_list(value)`: semicolons to commas, split on commas, strip, drop empties. -/
def parse_list (value : List Char) : List (List Char) :=
  if value = [] then []
  else
    let cleaned := value.map (fun c => if c = ';' then ',' else c)
    (((pySplit ',' cleaned).map pyStrip).filter (fun p => p ≠ []))

/-- The `Angel/Demon` split: on `↔`, `parts[0]` and `parts[1]` stripped,
otherwise both empty. -/
def angelDemonSplit (ad : List Char) : List Char × List Char :=
  if '↔' ∈ ad then
    let parts := (pySplit '↔' ad).map pyStrip
    (parts.headD [], (parts[1]?).getD [])
  else ([], [])

/-- Index of the first occurrence of `c` (meaningful when `c ∈ s`): `str.find`. -/
def firstIdx (c : Char) (s : List Char) : Nat := (s.takeWhile (fun d => d ≠ c)).length

/-- Index of the last occurrence of `c` (meaningful when `c ∈ s`): `str.rfind`. -/
def lastIdx (c : Char) (s : List Char) : Nat := s.length - 1 - firstIdx c s.reverse

/-- `crystal_line.split("(")[0].strip() if crystal_line else ""`. -/
def crystalOf (cl : List Char) : List Char :=
  if cl = [] then [] else pyStrip ((pySplit '(' cl).headD [])

/-- The `chem` computation: slice between `find("(") + 1` and `rfind(")")`,
stripped, provided both parentheses occur and the slice is forward. -/
def chemOf (cl : List Char) : List Char :=
  if cl ≠ [] ∧ '(' ∈ cl ∧ ')' ∈ cl then
    let start := firstIdx '(' cl + 1
    let e := lastIdx ')' cl
    if start < e then pyStrip ((cl.drop start).take (e - start)) else []
  else []

/-- Value of a digit character. -/
def digitVal (c : Char) : Nat := c.toNat - 48

/-- Value of a digit string. -/
def digitsVal (ds : List Char) : Nat := ds.foldl (fun a c => a * 10 + digitVal c) 0

/-- Python `float()` on the strings the `[\d\.]+` group can produce: at most
one dot and at least one digit, else a `ValueError` (`none`).  The value is
kept as an exact rational. -/
def pyFloat (s : List Char) : Option ℚ :=
  if ¬ s.all (fun c => c.isDigit ∨ c = '.') then none
  else if ¬ s.any (fun c => c.isDigit) then none
  else
    match pySplit '.' s with
    | [ip] => some (digitsVal ip)
    | [ip, fp] => some ((digitsVal ip : ℚ) + (digitsVal fp : ℚ) / (10 : ℚ) ^ fp.length)
    | _ => none

/-- The `freq` computation: the Solfeggio marker in `tech` if present (a parse
failure is a raised `ValueError`, modelled as `none`), else `float(map_freq(ray))`. -/
def freqOf (tech ray : List Char) : Option ℚ :=
  match searchFrom solfMatch tech with
  | some g => pyFloat g
  | none => some (map_freq (some ray) : ℚ)

/-- Lookahead `(?=##\s)` of the block-splitting regex. -/
def splitLookahead : List Char → Bool
  | a :: b :: w :: _ => a = '#' ∧ b = '#' ∧ isPySpace w = true
  | _ => false

/-- `re.split(r"\n(?=##\s)", md)`: cut at each newline that is immediately
followed by `##` and a whitespace character; the newline is consumed. -/
def reSplitHash : List Char → List (List Char)
  | [] => [[]]
  | c :: rest =>
      if c = '\n' ∧ splitLookahead rest = true then [] :: reSplitHash rest
      else consHead c (reSplitHash rest)

/-- The block list: split segments that start with `"## "`. -/
def blocksOf (md : List Char) : List (List Char) :=
  (reSplitHash md).filter (fun b => (str "## ").isPrefixOf b)

/-- One output record of the compiler. -/
structure Card where
  id : List Char
  name : List Char
  suit : List Char
  letter : List Char
  astrology : List Char
  ray : List Char
  angel : List Char
  demon : List Char
  deities : List Char
  crystal : List Char
  chemistry : List Char
  artifact : List Char
  pigment : List Char
  tara : List Char
  thought : List Char
  hga_fragment : List Char
  pattern_glyph : List Char
  psyche : List Char
  technical : List Char
  appPulls : List Char
  freq : ℚ
  witchEyeOrders : List (List Char)
  nonLivingLineages : List (List Char)
deriving DecidableEq, Repr

/-- The record built for a block whose heading group is `g` and whose
frequency came out as `fq` (the Python locals `name`, `ray`, … are inlined;
they are pure field extractions). -/
def mkCard (b g : List Char) (fq : ℚ) : Card :=
  { id := slug (pyStrip g)
    name := pyStrip g
    suit := suit (pyStrip g)
    letter := field b (str "Letter")
    astrology := field b (str "Astrology")
    ray := field b (str "Ray")
    angel := (angelDemonSplit (field b (str "Angel/Demon"))).1
    demon := (angelDemonSplit (field b (str "Angel/Demon"))).2
    deities := field b (str "Deities")
    crystal := crystalOf (field b (str "Crystal"))
    chemistry := chemOf (field b (str "Crystal"))
    artifact := field b (str "Artifact")
    pigment := field b (str "Pigment")
    tara := field b (str "Secret Tara")
    thought := field b (str "Thought-form")
    hga_fragment := field b (str "HGA Fragment")
    pattern_glyph := field b (str "Pattern Glyph")
    psyche := field b (str "Psyche")
    technical := field b (str "Technical")
    appPulls := field b (str "App Pulls")
    freq := fq
    witchEyeOrders := parse_list (field b (str "Witch Eye Order"))
    nonLivingLineages := parse_list (field b (str "Non-Living Lineage")) }

/-- The per-block body of the card assembly loop.  `.ok none`: block skipped
(no heading match, or empty `App Pulls`); `.error ()`: a raised exception
(the `float()` call on an unparseable Solfeggio group). -/
def assembleBlock (b : List Char) : Except Unit (Option Card) :=
  match searchMultiline nameMatchAt b with
  | none => .ok none
  | some g =>
      if field b (str "App Pulls") = [] then .ok none
      else
        match freqOf (field b (str "Technical")) (field b (str "Ray")) with
        | none => .error ()
        | some fq => .ok (some (mkCard b g fq))

/-- The whole run over the block list: the card list, or the first raised error. -/
def compileList : List (List Char) → Except Unit (List Card)
  | [] => .ok []
  | b :: rest =>
      match assembleBlock b with
      | .error e => .error e
      | .ok none => compileList rest
      | .ok (some c) =>
          match compileList rest with
          | .error e => .error e
          | .ok cs => .ok (c :: cs)

/-- The compiler on a whole document. -/
def compileCards (md : List Char) : Except Unit (List Card) :=
  compileList (blocksOf md)

instance {ε α : Type} [DecidableEq ε] [DecidableEq α] : DecidableEq (Except ε α) := fun a b =>
  match a, b with
  | .error e, .error f =>
      decidable_of_iff (e = f) ⟨fun h => by rw [h], fun h => by cases h; rfl⟩
  | .error _, .ok _ => .isFalse (fun h => by cases h)
  | .ok _, .error _ => .isFalse (fun h => by cases h)
  | .ok x, .ok y =>
      decidable_of_iff (x = y) ⟨fun h => by rw [h], fun h => by cases h; rfl⟩

/-- The lowercased ray text that `map_freq` scans. -/
def rayLower (ray : Option (List Char)) : List Char := pyLower (ray.getD [])

/-! ## Definitions following the spec's words (for refinement claims) -/

/-- Modelled from the spec wording of claim C7: the trimmed value of the first
line of the block containing a `- <key>: <value>` match, searching line by
line (so nothing can span a line break), or empty when no line matches. -/
def fieldSpecC7 (b k : List Char) : List Char :=
  match (pySplit '\n' b).findSome? (fun line => searchFrom (fieldMatch k) line) with
  | some g => pyStrip g
  | none => []

/-- Modelled from the spec wording of claim C5: `angel` is the trimmed text
before the (first) separator glyph and `demon` the trimmed text after it;
both empty when the glyph is absent. -/
def specAngelDemonC5 (ad : List Char) : List Char × List Char :=
  if '↔' ∈ ad then
    (pyStrip (ad.takeWhile (fun c => c ≠ '↔')),
     pyStrip ((ad.dropWhile (fun c => c ≠ '↔')).tail))
  else ([], [])

/-- Modelled from the spec wording of claim C6: `crystal` is the trimmed text
before the first `(` when the parenthesized group is well formed (both
parentheses present and the last `)` strictly after the first `(`), and the
whole trimmed field otherwise. -/
def crystalSpecC6 (cl : List Char) : List Char :=
  if '(' ∈ cl ∧ ')' ∈ cl ∧ firstIdx '(' cl < lastIdx ')' cl then
    pyStrip (cl.takeWhile (fun c => c ≠ '('))
  else pyStrip cl

/-- Modelled from the spec wording of claim C6: `chemistry` is the trimmed
text between the first `(` and the last `)` when the group is well formed,
and empty otherwise. -/
def chemSpecC6 (cl : List Char) : List Char :=
  if '(' ∈ cl ∧ ')' ∈ cl ∧ firstIdx '(' cl < lastIdx ')' cl then
    pyStrip ((cl.drop (firstIdx '(' cl + 1)).take (lastIdx ')' cl - (firstIdx '(' cl + 1)))
  else []

/-- Modelled from the spec wording of claim C9: a split happens only where a
newline is followed by `## ` (hash, hash, space). -/
def specLookaheadC9 : List Char → Bool
  | a :: b :: w :: _ => a = '#' ∧ b = '#' ∧ w = ' '
  | _ => false

/-- Modelled from the spec wording of claim C9: the splitter that cuts exactly
at lines beginning with `## `. -/
def specSplitC9 : List Char → List (List Char)
  | [] => [[]]
  | c :: rest =>
      if c = '\n' ∧ specLookaheadC9 rest = true then [] :: specSplitC9 rest
      else consHead c (specSplitC9 rest)

/-- Modelled from the spec wording of claim C9: blocks under the claim's
splitter, keeping segments that start with `"## "`. -/
def specBlocksC9 (md : List Char) : List (List Char) :=
  (specSplitC9 md).filter (fun b => (str "## ").isPrefixOf b)

/-- Scan `s` for a split point of the block-splitting regex: a newline
immediately followed by `##` and a whitespace character. -/
def hasSplitPoint : List Char → Bool
  | [] => false
  | c :: rest => (c = '\n' ∧ splitLookahead rest = true) || hasSplitPoint rest

/-! ## Helper lemmas -/

theorem isPrefixOf_exists (p l : List Char) : p.isPrefixOf l = true ↔ ∃ t, p ++ t = l := by
  induction p generalizing l with
  | nil => simp [List.isPrefixOf]
  | cons a as ih =>
    cases l with
    | nil => simp [List.isPrefixOf]
    | cons b bs =>
      simp only [List.isPrefixOf, Bool.and_eq_true, beq_iff_eq, ih, List.cons_append,
        List.cons.injEq]
      constructor
      · rintro ⟨rfl, t, rfl⟩; exact ⟨t, rfl, rfl⟩
      · rintro ⟨t, rfl, rfl⟩; exact ⟨rfl, t, rfl⟩

theorem orElse_eq_none {α : Type} (a : Option α) (b : Unit → Option α) :
    a.orElse b = none ↔ a = none ∧ b () = none := by
  cases a <;> simp [Option.orElse]

/-! ## Claim theorems -/

/-- Claim C3: `map_freq` always returns one of `{963, 852, 528, 417, 285, 432}`,
chosen by case-insensitive ordered keyword precedence (violet; indigo/silver;
gold/emerald/green/aquamarine/turquoise; crimson; scarlet/red; default 432),
an earlier rule winning even when a later rule's keyword also occurs; in
particular `map_freq("emerald and silver") = 852` and
`map_freq("unknown hue") = 432`, and null/empty input yields 432. -/
theorem mapFreq_spec (ray : Option (List Char)) :
    map_freq ray ∈ [963, 852, 528, 417, 285, 432] ∧
    (hasSub (str "violet") (rayLower ray) = true → map_freq ray = 963) ∧
    (hasSub (str "violet") (rayLower ray) = false →
      (hasSub (str "indigo") (rayLower ray) = true ∨ hasSub (str "silver") (rayLower ray) = true) →
      map_freq ray = 852) ∧
    (hasSub (str "violet") (rayLower ray) = false →
      hasSub (str "indigo") (rayLower ray) = false → hasSub (str "silver") (rayLower ray) = false →
      (∃ x ∈ [str "gold", str "emerald", str "green", str "aquamarine", str "turquoise"],
        hasSub x (rayLower ray) = true) →
      map_freq ray = 528) ∧
    (hasSub (str "violet") (rayLower ray) = false →
      hasSub (str "indigo") (rayLower ray) = false → hasSub (str "silver") (rayLower ray) = false →
      (∀ x ∈ [str "gold", str "emerald", str "green", str "aquamarine", str "turquoise"],
        hasSub x (rayLower ray) = false) →
      hasSub (str "crimson") (rayLower ray) = true →
      map_freq ray = 417) ∧
    (hasSub (str "violet") (rayLower ray) = false →
      hasSub (str "indigo") (rayLower ray) = false → hasSub (str "silver") (rayLower ray) = false →
      (∀ x ∈ [str "gold", str "emerald", str "green", str "aquamarine", str "turquoise"],
        hasSub x (rayLower ray) = false) →
      hasSub (str "crimson") (rayLower ray) = false →
      (hasSub (str "scarlet") (rayLower ray) = true ∨ hasSub (str "red") (rayLower ray) = true) →
      map_freq ray = 285) ∧
    (hasSub (str "violet") (rayLower ray) = false →
      hasSub (str "indigo") (rayLower ray) = false → hasSub (str "silver") (rayLower ray) = false →
      (∀ x ∈ [str "gold", str "emerald", str "green", str "aquamarine", str "turquoise"],
        hasSub x (rayLower ray) = false) →
      hasSub (str "crimson") (rayLower ray) = false →
      hasSub (str "scarlet") (rayLower ray) = false → hasSub (str "red") (rayLower ray) = false →
      map_freq ray = 432) ∧
    map_freq none = 432 ∧
    map_freq (some (str "emerald and silver")) = 852 ∧
    map_freq (some (str "unknown hue")) = 432 := by
  refine ⟨?_, ?_, ?_, ?_, ?_, ?_, ?_, by decide, by decide, by decide⟩ <;>
  · intros
    simp only [map_freq, rayLower, List.any_eq_true] at *
    split_ifs <;> simp_all

/-- Witness for C3 at concrete inputs: the violet rule and the rank-2-over-rank-3
precedence, instantiated and discharged by evaluation. -/
theorem mapFreq_spec_witness : map_freq (some (str "Violet Flame")) = 963 :=
  (mapFreq_spec (some (str "Violet Flame"))).2.1 (by decide)

/-- Claim C4: `suit` returns one of `{wands, cups, pentacles, swords, majors}`
by case-insensitive substring matching in fixed priority order (wands; cups;
pentacles/coin; swords/blade; otherwise majors), first match winning; e.g.
`suit("Queen of Coins") = "pentacles"`, `suit("Hero of Swords") = "swords"`,
`suit("The Fool") = "majors"`. -/
theorem suit_spec (n : List Char) :
    suit n ∈ [str "wands", str "cups", str "pentacles", str "swords", str "majors"] ∧
    (hasSub (str "wands") (pyLower n) = true → suit n = str "wands") ∧
    (hasSub (str "wands") (pyLower n) = false →
      hasSub (str "cups") (pyLower n) = true → suit n = str "cups") ∧
    (hasSub (str "wands") (pyLower n) = false → hasSub (str "cups") (pyLower n) = false →
      (hasSub (str "pentacles") (pyLower n) = true ∨ hasSub (str "coin") (pyLower n) = true) →
      suit n = str "pentacles") ∧
    (hasSub (str "wands") (pyLower n) = false → hasSub (str "cups") (pyLower n) = false →
      hasSub (str "pentacles") (pyLower n) = false → hasSub (str "coin") (pyLower n) = false →
      (hasSub (str "swords") (pyLower n) = true ∨ hasSub (str "blade") (pyLower n) = true) →
      suit n = str "swords") ∧
    (hasSub (str "wands") (pyLower n) = false → hasSub (str "cups") (pyLower n) = false →
      hasSub (str "pentacles") (pyLower n) = false → hasSub (str "coin") (pyLower n) = false →
      hasSub (str "swords") (pyLower n) = false → hasSub (str "blade") (pyLower n) = false →
      suit n = str "majors") ∧
    suit (str "Queen of Coins") = str "pentacles" ∧
    suit (str "Hero of Swords") = str "swords" ∧
    suit (str "The Fool") = str "majors" := by
  refine ⟨?_, ?_, ?_, ?_, ?_, ?_, by decide, by decide, by decide⟩ <;>
  · intros
    simp only [suit] at *
    split_ifs <;> simp_all

/-- Witness for C4: the wands rule instantiated at a concrete name and
discharged by evaluation. -/
theorem suit_spec_witness : suit (str "Ace of Wands") = str "wands" :=
  (suit_spec (str "Ace of Wands")).2.1 (by decide)

/-- Claim C10: field extraction can read past the key's own line: in the block
`"- Key:\t\nIndigo Ray"` the `- Key:` line has only whitespace after the colon,
and `field` returns the trimmed text of the following line, not the empty
string (the `\s*` after the colon spans the newline). -/
theorem field_spans_newline :
    field (str "- Key:\t" ++ '\n' :: str "Indigo Ray") (str "Key")
        = pyStrip (str "Indigo Ray") ∧
    (str "\t").all isPySpace = true ∧
    pyStrip (str "Indigo Ray") ≠ [] := by decide

theorem headD_consHead (c : Char) (L : List (List Char)) :
    (consHead c L).headD [] = c :: L.headD [] := by
  cases L <;> rfl

theorem pySplit_no_sep (a : Char) (l : List Char) (h : a ∉ l) : pySplit a l = [l] := by
  induction l with
  | nil => rfl
  | cons c rest ih =>
    have hca : ¬ c = a := fun hc => h (hc ▸ List.mem_cons_self c rest)
    have hrest : a ∉ rest := fun hr => h (List.mem_cons_of_mem c hr)
    simp [pySplit, hca, ih hrest, consHead]

theorem pySplit_sep_append (a : Char) (x y : List Char) (hx : a ∉ x) :
    pySplit a (x ++ a :: y) = x :: pySplit a y := by
  induction x with
  | nil => simp [pySplit]
  | cons c rest ih =>
    have hca : ¬ c = a := fun hc => hx (hc ▸ List.mem_cons_self c rest)
    have hrest : a ∉ rest := fun hr => hx (List.mem_cons_of_mem c hr)
    simp [pySplit, hca, ih hrest, consHead]

/-- Claim C5 counterexample: the code does not set `demon` to the trimmed text
after the (first) separator glyph: on `"Azael↔Bael↔Chax"` the code yields
`demon = "Bael"` while the claim requires `"Bael↔Chax"`. -/
theorem angelDemon_counterexample :
    ¬ ∀ ad : List Char, angelDemonSplit ad = specAngelDemonC5 ad := by
  intro h
  exact absurd (h (str "Azael↔Bael↔Chax")) (by decide)

/-- Claim C5 as amended: when the glyph occurs, `angel` is the trimmed text
before the first glyph and `demon` is the trimmed second `↔`-separated
segment — the trimmed text after the first glyph only up to a second glyph,
anything beyond being dropped; both are empty when the glyph is absent. -/
theorem angelDemon_amended :
    (∀ x y : List Char, '↔' ∉ x → '↔' ∉ y →
      angelDemonSplit (x ++ '↔' :: y) = (pyStrip x, pyStrip y)) ∧
    (∀ x y z : List Char, '↔' ∉ x → '↔' ∉ y →
      angelDemonSplit (x ++ '↔' :: (y ++ '↔' :: z)) = (pyStrip x, pyStrip y)) ∧
    (∀ ad : List Char, '↔' ∉ ad → angelDemonSplit ad = ([], [])) := by
  refine ⟨?_, ?_, ?_⟩
  · intro x y hx hy
    have hmem : '↔' ∈ x ++ '↔' :: y := by simp
    simp only [angelDemonSplit, if_pos hmem, pySplit_sep_append '↔' x y hx,
      pySplit_no_sep '↔' y hy, List.map_cons, List.map_nil]
    rfl
  · intro x y z hx hy
    have hmem : '↔' ∈ x ++ '↔' :: (y ++ '↔' :: z) := by simp
    simp only [angelDemonSplit, if_pos hmem, pySplit_sep_append '↔' x _ hx,
      pySplit_sep_append '↔' y z hy, List.map_cons]
    simp
  · intro ad h
    simp [angelDemonSplit, h]

/-- Witness for the amended C5 at a concrete field value with surrounding
whitespace, discharged by evaluation. -/
theorem angelDemon_amended_witness :
    angelDemonSplit (str " Azrael " ++ '↔' :: str " Bael ")
      = (pyStrip (str " Azrael "), pyStrip (str " Bael ")) :=
  angelDemon_amended.1 (str " Azrael ") (str " Bael ") (by decide) (by decide)

theorem headD_pySplit (a : Char) (l : List Char) :
    (pySplit a l).headD [] = l.takeWhile (fun c => c ≠ a) := by
  induction l with
  | nil => rfl
  | cons c rest ih =>
    by_cases hc : c = a
    · subst hc; simp [pySplit, List.takeWhile_cons]
    · simp only [pySplit, if_neg hc, headD_consHead, ih, List.takeWhile_cons]
      simp [hc]

theorem takeWhile_ne_of_not_mem (a : Char) (l : List Char) (h : a ∉ l) :
    l.takeWhile (fun c => c ≠ a) = l := by
  induction l with
  | nil => rfl
  | cons c rest ih =>
    have hca : ¬ c = a := fun hc => h (hc ▸ List.mem_cons_self c rest)
    have hrest : a ∉ rest := fun hr => h (List.mem_cons_of_mem c hr)
    simp [List.takeWhile_cons, hca, ih hrest]
    exact fun x hx hxa => hrest (hxa ▸ hx)

/-- Claim C6 counterexample: with a malformed parenthesized group the code does
not fall back to the whole trimmed field for `crystal`: on `"Obsidian )("`
the code yields `crystal = "Obsidian )"` (text before the first `(`), while
the claim requires the whole field `"Obsidian )("`. -/
theorem crystal_counterexample :
    ¬ ∀ cl : List Char, crystalOf cl = crystalSpecC6 cl ∧ chemOf cl = chemSpecC6 cl := by
  intro h
  exact absurd (h (str "Obsidian )(")).1 (by decide)

/-- Claim C6 as amended: `chemistry` behaves exactly as claimed (trimmed text
between the first `(` and the last `)` when well formed, else empty), but
`crystal` is the trimmed text before the first `(` whenever `(` occurs —
even for a malformed group — and the whole trimmed field only when `(` is
absent. -/
theorem crystal_chem_amended (cl : List Char) :
    crystalOf cl = (if '(' ∈ cl then pyStrip (cl.takeWhile (fun c => c ≠ '(')) else pyStrip cl) ∧
    chemOf cl = chemSpecC6 cl := by
  constructor
  · by_cases hcl : cl = []
    · subst hcl; simp [crystalOf, pyStrip]
    · rw [crystalOf, if_neg hcl, headD_pySplit]
      by_cases hp : '(' ∈ cl
      · rw [if_pos hp]
      · rw [if_neg hp, takeWhile_ne_of_not_mem '(' cl hp]
  · by_cases h1 : '(' ∈ cl
    · by_cases h2 : ')' ∈ cl
      · have hne : cl ≠ [] := List.ne_nil_of_mem h1
        rw [chemOf, chemSpecC6, if_pos ⟨hne, h1, h2⟩]
        by_cases h3 : firstIdx '(' cl + 1 < lastIdx ')' cl
        · rw [if_pos h3, if_pos ⟨h1, h2, by omega⟩]
        · rw [if_neg h3]
          by_cases h4 : firstIdx '(' cl < lastIdx ')' cl
          · rw [if_pos ⟨h1, h2, h4⟩,
              show lastIdx ')' cl - (firstIdx '(' cl + 1) = 0 by omega]
            simp [pyStrip]
          · rw [if_neg fun hc => h4 hc.2.2]
      · rw [chemOf, chemSpecC6, if_neg fun hc => h2 hc.2.2,
          if_neg fun hc => h2 hc.2.1]
    · rw [chemOf, chemSpecC6, if_neg fun hc => h1 hc.2.1,
        if_neg fun hc => h1 hc.1]

theorem fieldMatch_cons (k : List Char) (c : Char) (r : List Char) :
    fieldMatch k (c :: r) = if c = '-' then
      wsStar r (fun r1 =>
        lit (k ++ [':']) r1 (fun r2 =>
          wsStar r2 (fun r3 =>
            let v := r3.takeWhile (fun c => c ≠ '\n')
            if v.isEmpty then none else some v)))
    else none := rfl

theorem searchFrom_cons {α : Type} (m : List Char → Option α) (c : Char) (rest : List Char) :
    searchFrom m (c :: rest) = (m (c :: rest)).orElse (fun _ => searchFrom m rest) := rfl

theorem field_of_search_some (b k g : List Char)
    (h : searchFrom (fieldMatch k) b = some g) : field b k = pyStrip g := by
  unfold field
  rw [h]

theorem field_of_search_none (b k : List Char)
    (h : searchFrom (fieldMatch k) b = none) : field b k = [] := by
  unfold field
  rw [h]

theorem wsStar_single {α : Type} (c : Char) (t : List Char) (k : List Char → Option α) (v : α)
    (hc : isPySpace c = true) (ht : t.takeWhile isPySpace = [])
    (hk : k t = some v) : wsStar (c :: t) k = some v := by
  simp only [wsStar, List.takeWhile_cons, hc, if_true, ht, List.length_cons, List.length_nil,
    tryDesc, List.drop_succ_cons, List.drop_zero, hk, Option.orElse]

theorem takeWhile_ne_nl (v rest : List Char) (hv : ∀ c ∈ v, c ≠ '\n') :
    (v ++ '\n' :: rest).takeWhile (fun c => c ≠ '\n') = v := by
  induction v with
  | nil => simp [List.takeWhile_cons]
  | cons c v' ih =>
    have hc : c ≠ '\n' := hv c (List.mem_cons_self c v')
    have ih' := ih fun d hd => hv d (List.mem_cons_of_mem c hd)
    rw [List.cons_append, List.takeWhile_cons, if_pos (decide_eq_true hc), ih']

theorem lit_append {α : Type} (p t : List Char) (k : List Char → Option α) :
    lit p (p ++ t) k = k t := by
  have h : p.isPrefixOf (p ++ t) = true := (isPrefixOf_exists p (p ++ t)).mpr ⟨t, rfl⟩
  simp [lit, h, List.drop_left]

theorem searchFrom_fieldMatch_none (k b : List Char) (h : '-' ∉ b) :
    searchFrom (fieldMatch k) b = none := by
  induction b with
  | nil => rfl
  | cons c rest ih =>
    have hc : ¬ c = '-' := fun hc => h (hc ▸ List.mem_cons_self c rest)
    have hr : '-' ∉ rest := fun hm => h (List.mem_cons_of_mem c hm)
    rw [searchFrom_cons, fieldMatch_cons, if_neg hc]
    simp [Option.orElse, ih hr]

/-- Claim C7 counterexample: `field` is not a per-line extractor.  On the block
`"- Key: \nNext"` the only `- Key:` line carries a whitespace-only value (so
the claim's line-by-line reading yields the empty string), but the code's
`\s*` crosses the newline and `field` returns `"Next"`. -/
theorem field_counterexample :
    ¬ ∀ b k : List Char, field b k = fieldSpecC7 b k := by
  intro h
  exact absurd (h (str "- Key: \nNext") (str "Key")) (by decide)

/-- Claim C7 as amended: `field` returns the trimmed captured value of the
first (leftmost) match of `-\s*<key>:\s*([^\n]+)` anywhere in the block — the
match may start mid-line and its whitespace may span line breaks.  For a
block that begins with a well-formed `- <key>: <value>` line (key and value
starting with non-whitespace, value free of newlines) the result is the
trimmed value, whatever follows on later lines (so later duplicate keys are
ignored); and a block containing no `-` at all yields the empty string. -/
theorem field_amended :
    (∀ (kc : Char) (kt : List Char) (v rest : List Char),
      ¬ isPySpace kc = true → v ≠ [] → (∀ c ∈ v, c ≠ '\n') →
      ¬ isPySpace (v.headD ' ') = true →
      field ('-' :: ' ' :: ((kc :: kt) ++ ':' :: ' ' :: (v ++ '\n' :: rest))) (kc :: kt)
        = pyStrip v) ∧
    (∀ b k : List Char, '-' ∉ b → field b k = []) := by
  constructor
  · intro kc kt v rest hkc hv hvn hvh
    obtain ⟨c₀, v', rfl⟩ : ∃ c₀ v', v = c₀ :: v' := by
      cases v with
      | nil => exact absurd rfl hv
      | cons a b => exact ⟨a, b, rfl⟩
    have hkc0 : isPySpace kc = false := by simpa using hkc
    have hc₀ : isPySpace c₀ = false := by simpa using hvh
    have step3 : wsStar (' ' :: (c₀ :: v' ++ '\n' :: rest)) (fun r3 =>
        let w := r3.takeWhile (fun c => c ≠ '\n')
        if w.isEmpty then none else some w) = some (c₀ :: v') := by
      apply wsStar_single _ _ _ _ (by decide)
      · simp [List.takeWhile_cons, hc₀]
      · simp only [takeWhile_ne_nl (c₀ :: v') rest hvn]
        rfl
    have step2 : lit ((kc :: kt) ++ [':'])
        ((kc :: kt) ++ ':' :: ' ' :: (c₀ :: v' ++ '\n' :: rest))
        (fun r2 => wsStar r2 (fun r3 =>
          let w := r3.takeWhile (fun c => c ≠ '\n')
          if w.isEmpty then none else some w)) = some (c₀ :: v') := by
      rw [show (kc :: kt) ++ ':' :: ' ' :: (c₀ :: v' ++ '\n' :: rest)
            = ((kc :: kt) ++ [':']) ++ (' ' :: (c₀ :: v' ++ '\n' :: rest)) by simp]
      rw [lit_append]
      exact step3
    have step1 : fieldMatch (kc :: kt)
        ('-' :: ' ' :: ((kc :: kt) ++ ':' :: ' ' :: (c₀ :: v' ++ '\n' :: rest)))
        = some (c₀ :: v') := by
      rw [fieldMatch_cons, if_pos rfl]
      apply wsStar_single _ _ _ _ (by decide)
      · simp [List.takeWhile_cons, hkc0]
      · exact step2
    have hsearch : searchFrom (fieldMatch (kc :: kt))
        ('-' :: ' ' :: ((kc :: kt) ++ ':' :: ' ' :: (c₀ :: v' ++ '\n' :: rest)))
        = some (c₀ :: v') := by
      rw [searchFrom_cons, step1]
      rfl
    exact field_of_search_some _ _ _ hsearch
  · intro b k h
    exact field_of_search_none _ _ (searchFrom_fieldMatch_none k b h)

/-- Witness for the amended C7: a concrete block whose first `- Key:` line
carries the value and whose second line repeats the key with another value;
the first match wins and is trimmed. -/
theorem field_amended_witness :
    field ('-' :: ' ' :: ((str "Key") ++ ':' :: ' ' :: (str "Value" ++ '\n' :: str "- Key: Other")))
        (str "Key") = pyStrip (str "Value") :=
  field_amended.1 'K' (str "ey") (str "Value") (str "- Key: Other")
    (by decide) (by decide) (by decide) (by decide)

theorem reSplitHash_cons (c : Char) (rest : List Char) :
    reSplitHash (c :: rest) = if c = '\n' ∧ splitLookahead rest = true
      then [] :: reSplitHash rest else consHead c (reSplitHash rest) := rfl

theorem hasSplitPoint_cons_false (c : Char) (rest : List Char)
    (h : hasSplitPoint (c :: rest) = false) :
    ¬ (c = '\n' ∧ splitLookahead rest = true) ∧ hasSplitPoint rest = false := by
  simp only [hasSplitPoint, Bool.or_eq_false_iff, decide_eq_false_iff_not] at h
  exact h

theorem splitLookahead_stable (a q : List Char) :
    splitLookahead (a ++ '\n' :: q) = splitLookahead (a ++ ['\n']) := by
  rcases a with _ | ⟨x, _ | ⟨y, _ | ⟨z, rs⟩⟩⟩
  · rcases q with _ | ⟨b, _ | ⟨w, t⟩⟩ <;> simp [splitLookahead]
  · rcases q with _ | ⟨w, t⟩ <;> simp [splitLookahead]
  · rfl
  · rfl

/-- Claim C9 counterexample: the code also splits at a line beginning with
`##` followed by any whitespace character, not only `"## "`: on
`"## A\n##\tB\n- App Pulls: y"` the code cuts at the `##<tab>` line and
discards it, while the claim's splitter keeps that text inside the single
block. -/
theorem splitter_counterexample :
    ¬ ∀ md : List Char, blocksOf md = specBlocksC9 md := by
  intro h
  exact absurd (h (str "## A\n##\tB\n- App Pulls: y")) (by decide)

/-- Claim C9 as amended: the splitter cuts exactly at each newline followed by
`##` and a whitespace character (space, tab, newline, …), not only `"## "`:
a text with no such point stays whole, a cut produces the text before the
newline as one segment followed by the segments of the remainder (so order
is preserved), and only segments starting with `"## "` are kept as blocks. -/
theorem splitter_amended :
    (∀ s : List Char, hasSplitPoint s = false → reSplitHash s = [s]) ∧
    (∀ (a : List Char) (w : Char) (rest : List Char), isPySpace w = true →
      hasSplitPoint (a ++ ['\n']) = false →
      reSplitHash (a ++ '\n' :: '#' :: '#' :: w :: rest)
        = a :: reSplitHash ('#' :: '#' :: w :: rest)) ∧
    (∀ (md b : List Char), b ∈ blocksOf md → (str "## ").isPrefixOf b = true) := by
  refine ⟨?_, ?_, ?_⟩
  · intro s
    induction s with
    | nil => intro _; rfl
    | cons c rest ih =>
      intro h
      obtain ⟨hc, hrest⟩ := hasSplitPoint_cons_false c rest h
      rw [reSplitHash_cons, if_neg hc, ih hrest]
      rfl
  · intro a w rest hw
    induction a with
    | nil =>
      intro _
      rw [List.nil_append, reSplitHash_cons,
        if_pos ⟨rfl, by simp [splitLookahead, hw]⟩]
    | cons c a' ih =>
      intro h
      obtain ⟨hc, hrest⟩ := hasSplitPoint_cons_false c (a' ++ ['\n']) (by simpa using h)
      have hc' : ¬ (c = '\n' ∧ splitLookahead (a' ++ '\n' :: '#' :: '#' :: w :: rest) = true) := by
        rw [splitLookahead_stable a' ('#' :: '#' :: w :: rest)]
        exact hc
      rw [List.cons_append, reSplitHash_cons, if_neg hc', ih hrest]
      rfl
  · intro md b hb
    exact (List.mem_filter.mp hb).2

/-- Witness for the amended C9: a concrete cut at `"\n## "`, with the segment
before the newline free of split points, discharged by evaluation. -/
theorem splitter_amended_witness :
    reSplitHash (str "## A" ++ '\n' :: '#' :: '#' :: ' ' :: str "B")
      = str "## A" :: reSplitHash ('#' :: '#' :: ' ' :: str "B") :=
  splitter_amended.2.1 (str "## A") ' ' (str "B") (by decide) (by decide)

theorem assembleBlock_cases (b : List Char) :
    (searchMultiline nameMatchAt b = none ∧ assembleBlock b = .ok none) ∨
    (∃ g, searchMultiline nameMatchAt b = some g ∧
      field b (str "App Pulls") = [] ∧ assembleBlock b = .ok none) ∨
    (∃ g, searchMultiline nameMatchAt b = some g ∧
      field b (str "App Pulls") ≠ [] ∧
      freqOf (field b (str "Technical")) (field b (str "Ray")) = none ∧
      assembleBlock b = .error ()) ∨
    (∃ g fq, searchMultiline nameMatchAt b = some g ∧
      field b (str "App Pulls") ≠ [] ∧
      freqOf (field b (str "Technical")) (field b (str "Ray")) = some fq ∧
      assembleBlock b = .ok (some (mkCard b g fq))) := by
  cases hn : searchMultiline nameMatchAt b with
  | none =>
    exact .inl ⟨rfl, by unfold assembleBlock; rw [hn]⟩
  | some g =>
    by_cases hp : field b (str "App Pulls") = []
    · exact .inr (.inl ⟨g, rfl, hp, by simp [assembleBlock, hn, hp]⟩)
    · cases hf : freqOf (field b (str "Technical")) (field b (str "Ray")) with
      | none =>
        exact .inr (.inr (.inl ⟨g, rfl, hp, rfl, by
          simp only [assembleBlock, hn, if_neg hp, hf]⟩))
      | some fq =>
        exact .inr (.inr (.inr ⟨g, fq, rfl, hp, rfl, by
          simp only [assembleBlock, hn, if_neg hp, hf]⟩))

/-- Claim C2: for every assembled record, `freq` is the number of the
case-sensitive `Solfeggio = <number>` marker in `Technical` parsed as a
float when the marker matches (overriding the ray-derived value), and
`float(map_freq(ray))` otherwise — which is 432.0 when the `Ray` field is
absent or matches no keyword. -/
theorem freq_spec (b : List Char) (c : Card) (h : assembleBlock b = .ok (some c)) :
    ((∃ g, searchFrom solfMatch (field b (str "Technical")) = some g ∧
        pyFloat g = some c.freq) ∨
      (searchFrom solfMatch (field b (str "Technical")) = none ∧
        c.freq = (map_freq (some (field b (str "Ray"))) : ℚ))) ∧
    (searchFrom solfMatch (field b (str "Technical")) = none →
      field b (str "Ray") = [] → c.freq = 432) := by
  rcases assembleBlock_cases b with ⟨_, he⟩ | ⟨g, _, _, he⟩ | ⟨g, _, _, _, he⟩
    | ⟨g, fq, hn, hp, hf, he⟩
  · rw [he] at h; simp at h
  · rw [he] at h; simp at h
  · rw [he] at h; simp at h
  · rw [he] at h
    have hc : c = mkCard b g fq := by
      injection h with h1
      injection h1 with h2
      exact h2.symm
    have hfq : c.freq = fq := by rw [hc]; rfl
    cases hs : searchFrom solfMatch (field b (str "Technical")) with
    | some g' =>
      unfold freqOf at hf
      rw [hs] at hf
      constructor
      · exact .inl ⟨g', rfl, by rw [hfq]; exact hf⟩
      · intro hnone _
        exact Option.noConfusion hnone
    | none =>
      unfold freqOf at hf
      rw [hs] at hf
      have hval : (map_freq (some (field b (str "Ray"))) : ℚ) = fq :=
        (Option.some.injEq _ _).mp hf
      constructor
      · exact .inr ⟨rfl, by rw [hfq, hval]⟩
      · intro _ hray
        rw [hfq, ← hval, hray]
        norm_num [show map_freq (some ([] : List Char)) = 432 from by decide]

/-- Witness for C2 at a concrete block with an explicit `Solfeggio=5` marker,
all hypotheses discharged by evaluation. -/
theorem freq_spec_witness :
    ((∃ g, searchFrom solfMatch
          (field (str "## F\n- App Pulls: y\n- Technical: Solfeggio=5") (str "Technical"))
          = some g ∧
        pyFloat g = some (mkCard (str "## F\n- App Pulls: y\n- Technical: Solfeggio=5")
          (str "F") 5).freq) ∨
      (searchFrom solfMatch
          (field (str "## F\n- App Pulls: y\n- Technical: Solfeggio=5") (str "Technical"))
          = none ∧
        (mkCard (str "## F\n- App Pulls: y\n- Technical: Solfeggio=5") (str "F") 5).freq
          = (map_freq (some (field (str "## F\n- App Pulls: y\n- Technical: Solfeggio=5")
              (str "Ray"))) : ℚ))) ∧
    (searchFrom solfMatch
        (field (str "## F\n- App Pulls: y\n- Technical: Solfeggio=5") (str "Technical"))
        = none →
      field (str "## F\n- App Pulls: y\n- Technical: Solfeggio=5") (str "Ray") = [] →
      (mkCard (str "## F\n- App Pulls: y\n- Technical: Solfeggio=5") (str "F") 5).freq = 432) :=
  freq_spec (str "## F\n- App Pulls: y\n- Technical: Solfeggio=5")
    (mkCard (str "## F\n- App Pulls: y\n- Technical: Solfeggio=5") (str "F") 5) (by decide)

/-- Claim C8 counterexample: assembling a record can raise: with `Technical`
set to `Solfeggio = .`, the marker regex captures `"."`, `float(".")` raises
`ValueError`, and the run aborts even though only field contents — not file
I/O — were malformed. -/
theorem solfeggio_error_counterexample :
    ¬ ∀ b : List Char, assembleBlock b ≠ Except.error () := by
  intro h
  exact h (str "## X\n- App Pulls: y\n- Technical: Solfeggio = .") (by decide)

/-- Claim C8 as amended: malformed or missing fields degrade to empty string,
empty list or the default frequency and never abort the block — except that a
`Solfeggio` marker whose captured number fails float parsing (no digit, or
more than one dot) raises and aborts the run: assembly errors exactly when
the heading matched, `App Pulls` is non-empty, and the captured Solfeggio
group fails to parse.  (File-level I/O failures are outside the per-block
model.) -/
theorem assemble_error_iff (b : List Char) :
    assembleBlock b = .error () ↔
      ∃ g g', searchMultiline nameMatchAt b = some g ∧
        field b (str "App Pulls") ≠ [] ∧
        searchFrom solfMatch (field b (str "Technical")) = some g' ∧
        pyFloat g' = none := by
  constructor
  · intro h
    rcases assembleBlock_cases b with ⟨_, he⟩ | ⟨g, _, _, he⟩ | ⟨g, hn, hp, hf, he⟩
      | ⟨g, fq, _, _, _, he⟩
    · rw [he] at h; cases h
    · rw [he] at h; cases h
    · refine ⟨g, ?_⟩
      unfold freqOf at hf
      cases hs : searchFrom solfMatch (field b (str "Technical")) with
      | none => rw [hs] at hf; cases hf
      | some g' =>
        rw [hs] at hf
        exact ⟨g', hn, hp, rfl, hf⟩
    · rw [he] at h; cases h
  · rintro ⟨g, g', hn, hp, hs, hpf⟩
    have hf : freqOf (field b (str "Technical")) (field b (str "Ray")) = none := by
      unfold freqOf; rw [hs]; exact hpf
    simp only [assembleBlock, hn, if_neg hp, hf]

theorem searchFrom_some_suffix {α : Type} (m : List Char → Option α) (l : List Char) (a : α)
    (h : searchFrom m l = some a) : ∃ s, s <:+ l ∧ m s = some a := by
  induction l with
  | nil => exact ⟨[], List.suffix_rfl, h⟩
  | cons c rest ih =>
    rw [searchFrom_cons] at h
    cases hm : m (c :: rest) with
    | some v =>
      rw [hm] at h
      simp only [Option.orElse] at h
      exact ⟨c :: rest, List.suffix_rfl, by rw [hm, h]⟩
    | none =>
      rw [hm] at h
      simp only [Option.orElse] at h
      obtain ⟨s, hs, hm'⟩ := ih h
      exact ⟨s, hs.trans (List.suffix_cons c rest), hm'⟩

theorem fieldMatch_some_shape (k s : List Char) (g : List Char)
    (h : fieldMatch k s = some g) : ∃ r, s = '-' :: r := by
  cases s with
  | nil => cases h
  | cons c r =>
    rw [fieldMatch_cons] at h
    by_cases hc : c = '-'
    · exact ⟨r, by rw [hc]⟩
    · rw [if_neg hc] at h; cases h

theorem dash_mem_of_field_ne (b k : List Char) (h : field b k ≠ []) : '-' ∈ b := by
  unfold field at h
  cases hs : searchFrom (fieldMatch k) b with
  | none => rw [hs] at h; exact absurd rfl h
  | some g =>
    obtain ⟨s, hsuf, hm⟩ := searchFrom_some_suffix _ _ _ hs
    obtain ⟨r, rfl⟩ := fieldMatch_some_shape k s g hm
    exact hsuf.subset (List.mem_cons_self '-' r)

theorem tryDesc1_isSome {α : Type} (s : List Char) (n : Nat) (k : List Char → Option α)
    (i : Nat) (h1 : 1 ≤ i) (h2 : i ≤ n) (h : (k (s.drop i)).isSome = true) :
    (tryDesc1 s n k).isSome = true := by
  induction n with
  | zero => omega
  | succ m ih =>
    cases hk : k (s.drop (m + 1)) with
    | some v => simp [tryDesc1, hk, Option.orElse]
    | none =>
      have him : i ≤ m := by
        rcases Nat.lt_or_ge i (m + 1) with hlt | hge
        · omega
        · have hieq : i = m + 1 := by omega
          rw [hieq, hk] at h
          cases h
      simp only [tryDesc1, hk, Option.orElse]
      exact ih him

theorem lazyScan_cons (acc : List Char) (c : Char) (rest : List Char) :
    lazyScan acc (c :: rest) = if c = '\n' then none
      else if wsStarDollar rest = true then some (acc.reverse ++ [c])
      else lazyScan (c :: acc) rest := rfl

theorem lazyScan_isSome (c : Char) (rest : List Char) (acc : List Char) (h : ¬ c = '\n') :
    (lazyScan acc (c :: rest)).isSome = true := by
  induction rest generalizing acc c with
  | nil => simp [lazyScan_cons, h, wsStarDollar]
  | cons d rest' ih =>
    rw [lazyScan_cons, if_neg h]
    by_cases hw : wsStarDollar (d :: rest') = true
    · simp [hw]
    · have hd : ¬ d = '\n' := by
        intro hdn
        subst hdn
        simp [wsStarDollar] at hw
      rw [if_neg hw]
      exact ih d (c :: acc) hd

theorem drop_length_takeWhile (p : Char → Bool) (l : List Char) :
    l.drop (l.takeWhile p).length = l.dropWhile p := by
  induction l with
  | nil => rfl
  | cons c rest ih =>
    by_cases hc : p c = true
    · simp [List.takeWhile_cons, List.dropWhile_cons, hc, ih]
    · simp [List.takeWhile_cons, List.dropWhile_cons, hc]

theorem dropWhile_head_false (p : Char → Bool) (l : List Char) (c : Char) (rest : List Char)
    (h : l.dropWhile p = c :: rest) : p c = false := by
  induction l with
  | nil => cases h
  | cons d t ih =>
    rw [List.dropWhile_cons] at h
    by_cases hd : p d = true
    · rw [if_pos hd] at h; exact ih h
    · rw [if_neg hd] at h
      injection h with h1 _
      subst h1
      simpa using hd

theorem dropWhile_ne_nil_of_exists (p : Char → Bool) (l : List Char)
    (h : ∃ c ∈ l, p c = false) : l.dropWhile p ≠ [] := by
  induction l with
  | nil => simp at h
  | cons d t ih =>
    rw [List.dropWhile_cons]
    by_cases hd : p d = true
    · rw [if_pos hd]
      apply ih
      obtain ⟨c, hc, hcp⟩ := h
      rcases List.mem_cons.mp hc with rfl | hmem
      · rw [hd] at hcp; cases hcp
      · exact ⟨c, hmem, hcp⟩
    · rw [if_neg hd]; simp

theorem nameMatchAt_isSome_of_nonspace (t : List Char)
    (h : ∃ c ∈ t, isPySpace c = false) :
    (nameMatchAt ('#' :: '#' :: ' ' :: t)).isSome = true := by
  have hb : ('#' :: '#' :: ' ' :: t) = (str "##") ++ (' ' :: t) := rfl
  rw [nameMatchAt, hb, lit_append]
  have hex : ∃ c ∈ ' ' :: t, isPySpace c = false := by
    obtain ⟨c, hc, hcp⟩ := h
    exact ⟨c, List.mem_cons_of_mem _ hc, hcp⟩
  have hne : (' ' :: t).dropWhile isPySpace ≠ [] := dropWhile_ne_nil_of_exists _ _ hex
  obtain ⟨c₀, rest₀, hd⟩ : ∃ c₀ rest₀, (' ' :: t).dropWhile isPySpace = c₀ :: rest₀ := by
    cases hdw : (' ' :: t).dropWhile isPySpace with
    | nil => exact absurd hdw hne
    | cons a bb => exact ⟨a, bb, rfl⟩
  have hc₀ : isPySpace c₀ = false := dropWhile_head_false _ _ _ _ hd
  have hlen : 1 ≤ ((' ' :: t).takeWhile isPySpace).length := by
    rw [List.takeWhile_cons, if_pos (show isPySpace ' ' = true from rfl)]
    simp
  rw [wsPlus]
  apply tryDesc1_isSome _ _ _ ((' ' :: t).takeWhile isPySpace).length hlen (Nat.le_refl _)
  rw [drop_length_takeWhile, hd]
  have hc₀n : ¬ c₀ = '\n' := by
    intro he
    rw [he] at hc₀
    simp [isPySpace] at hc₀
  exact lazyScan_isSome c₀ rest₀ [] hc₀n

theorem searchMultiline_isSome_of_head {α : Type} (m : List Char → Option α) (s : List Char)
    (h : (m s).isSome = true) : (searchMultiline m s).isSome = true := by
  unfold searchMultiline
  cases hm : m s with
  | none => rw [hm] at h; cases h
  | some v => simp [hm, Option.orElse]

theorem nameSearch_some_of_field (b k : List Char)
    (hpre : (str "## ").isPrefixOf b = true) (hf : field b k ≠ []) :
    (searchMultiline nameMatchAt b).isSome = true := by
  obtain ⟨t, rfl⟩ : ∃ t, '#' :: '#' :: ' ' :: t = b := by
    obtain ⟨t, ht⟩ := (isPrefixOf_exists _ _).mp hpre
    exact ⟨t, ht⟩
  have hdash : '-' ∈ ('#' :: '#' :: ' ' :: t) := dash_mem_of_field_ne _ _ hf
  have hdt : '-' ∈ t := by simpa using hdash
  exact searchMultiline_isSome_of_head _ _
    (nameMatchAt_isSome_of_nonspace t ⟨'-', hdt, by decide⟩)

/-- Claim C1: a block of a document contributes a record if and only if its
`App Pulls` field is non-empty — when the heading regex finds no name the
block can contain no field line at all, so the `App Pulls` gate is the only
filter — and a block lacking `App Pulls` is skipped with `.ok none`: zero
records and no error. -/
theorem appPulls_gate (md b : List Char) (hb : b ∈ blocksOf md) :
    (∀ r, assembleBlock b = .ok r → (r.isSome = true ↔ field b (str "App Pulls") ≠ [])) ∧
    (field b (str "App Pulls") = [] → assembleBlock b = .ok none) := by
  have hpre : (str "## ").isPrefixOf b = true := (List.mem_filter.mp hb).2
  constructor
  · intro r hr
    constructor
    · intro hsome hf
      rcases assembleBlock_cases b with ⟨hn, he⟩ | ⟨g, hn, hp, he⟩ | ⟨g, hn, hp, hfq, he⟩
        | ⟨g, fq, hn, hp, hfq, he⟩
      · rw [he] at hr
        injection hr with h1
        rw [← h1] at hsome
        cases hsome
      · rw [he] at hr
        injection hr with h1
        rw [← h1] at hsome
        cases hsome
      · rw [he] at hr; cases hr
      · exact hp hf
    · intro hf
      rcases assembleBlock_cases b with ⟨hn, he⟩ | ⟨g, hn, hp, he⟩ | ⟨g, hn, hp, hfq, he⟩
        | ⟨g, fq, hn, hp, hfq, he⟩
      · have hsome := nameSearch_some_of_field b (str "App Pulls") hpre hf
        rw [hn] at hsome
        cases hsome
      · exact absurd hp hf
      · rw [he] at hr; cases hr
      · rw [he] at hr
        injection hr with h1
        rw [← h1]
        rfl
  · intro hf
    rcases assembleBlock_cases b with ⟨hn, he⟩ | ⟨g, hn, hp, he⟩ | ⟨g, hn, hp, hfq, he⟩
      | ⟨g, fq, hn, hp, hfq, he⟩
    · exact he
    · exact he
    · exact absurd hf hp
    · exact absurd hf hp

/-- Witness for C1 at a concrete one-block document with a non-empty
`App Pulls`, membership and hypotheses discharged by evaluation. -/
theorem appPulls_gate_witness :
    (∀ r, assembleBlock (str "## A\n- App Pulls: y") = .ok r →
      (r.isSome = true ↔ field (str "## A\n- App Pulls: y") (str "App Pulls") ≠ [])) ∧
    (field (str "## A\n- App Pulls: y") (str "App Pulls") = [] →
      assembleBlock (str "## A\n- App Pulls: y") = .ok none) :=
  appPulls_gate (str "## A\n- App Pulls: y") (str "## A\n- App Pulls: y") (by decide)
